import Mathlib

/-!
Shallow embedding of the DeepFool notebook (`deep-fool.ipynb`) from the
Sound_Classification repository, together with theorems settling the
specification claims C1 to C10 about it.

Modelling conventions:
* Python floats are modelled as real numbers (exact real arithmetic).
* A multi-field input (`x0`, perturbations, gradients) is a list of
  fields; each field is a 2-dimensional array modelled as a list of rows,
  each row a list of reals.  The leading axis of a field models the
  leading numpy axis (the one `r_i[i][0]` indexes).
* `np.argsort` is modelled as a stable ascending sort of indices by
  value (for arrays of fewer than 17 elements numpy's default sort is an
  insertion sort, hence stable; the score vectors here have 10 entries).
* `np.inf` (the initial value of `fk_wk_min`) is modelled by `⊤ : EReal`,
  with real-valued distances coerced into `EReal` for the comparison.
* The classifier is an abstract `Model`: a score function and a
  per-class gradient function, the two values returned by `get_gradient`.
-/

namespace DF

noncomputable section

/-- One field of a multi-field tensor: rows of real entries. -/
abbrev Field := List (List ℝ)

/-- A multi-field value (input, perturbation or gradient): a list of fields. -/
abbrev Input := List Field

/-- Sum of squares of one row. -/
def sumSqRow (row : List ℝ) : ℝ := (row.map (fun a => a ^ 2)).sum

/-- Sum of squares of all entries of a field. -/
def sumSqField (f : Field) : ℝ := (f.map sumSqRow).sum

/-- Euclidean norm of one field, as `np.linalg.norm` computes it. -/
def fieldNorm (f : Field) : ℝ := Real.sqrt (sumSqField f)

/-- Joint norm as the notebook computes it:
`np.sqrt(np.sum([np.linalg.norm(v)**2 for v in x]))`. -/
def jointNorm (x : Input) : ℝ := Real.sqrt ((x.map (fun f => fieldNorm f ^ 2)).sum)

/-- Squared-norm accumulator used for `w_l_squared_norm` in `deepfool`:
`np.sum([np.linalg.norm(v)**2 for v in w_l])`. -/
def wSquaredNorm (w : Input) : ℝ := (w.map (fun f => fieldNorm f ^ 2)).sum

/-- Euclidean norm of the flattened union of all fields (the spec's joint
norm "over the flattened union of all fields", written from the spec's
words to compare against `jointNorm`). -/
def flatNorm (x : Input) : ℝ := Real.sqrt ((x.map sumSqField).sum)

/-- Field-wise binary pointwise operation (numpy elementwise arithmetic on
arrays of identical shape). -/
def fieldZip (op : ℝ → ℝ → ℝ) (a b : Field) : Field :=
  List.zipWith (fun ra rb => List.zipWith op ra rb) a b

/-- Pointwise operation over a whole multi-field value. -/
def inputZip (op : ℝ → ℝ → ℝ) (a b : Input) : Input :=
  List.zipWith (fieldZip op) a b

/-- Field-wise difference `g_f_k - g_f_label`. -/
def inputSub (a b : Input) : Input := inputZip (· - ·) a b

/-- Field-wise sum `xi_item + ...`. -/
def inputAdd (a b : Input) : Input := inputZip (· + ·) a b

/-- Scalar multiple of one field. -/
def fieldSmul (c : ℝ) (f : Field) : Field := f.map (fun row => row.map (fun a => c * a))

/-- Scalar multiple of a multi-field value, `[c * v for v in w]`. -/
def inputSmul (c : ℝ) (x : Input) : Input := x.map (fieldSmul c)

/-- Zero field of the same shape as `f`, `np.zeros(f.shape)`. -/
def zerosField (f : Field) : Field := f.map (fun row => row.map (fun _ => 0))

/-- Zero multi-field value of the same shape as `x`,
`[np.zeros(v.shape) for v in x]`. -/
def zerosLike (x : Input) : Input := x.map zerosField

/-- Shape of one field: the list of its row lengths. -/
def fieldShape (f : Field) : List ℕ := f.map List.length

/-- Shape of a multi-field value: field count and per-field shapes. -/
def inputShape (x : Input) : List (List ℕ) := x.map fieldShape

/-- The classifier as the core sees it: a score vector and, for each
class index, the gradient of that class's score with respect to the
input.  `predict` models both `model.predict(x).flatten()` and the
first row of `model(x)` inside the gradient tape (the same forward
pass numerically). -/
structure Model where
  predict : Input → List ℝ
  grad : Input → ℕ → Input

/-- Embedding of `get_gradient(model, x, k)`: the gradient of class `k`
at `x` together with the model's score vector at `x`. -/
def get_gradient (model : Model) (x : Input) (k : ℕ) : Input × List ℝ :=
  (model.grad x k, model.predict x)

/-- Embedding of `example_robustness(x, r)`: `‖r‖ / ‖x‖` with the
notebook's joint norms. -/
def example_robustness (x r : Input) : ℝ := jointNorm r / jointNorm x

/-- Stable ascending insertion of index `i` into an index list already
sorted by score value: `i` passes every index whose value is strictly
greater, so equal values keep their original index order. -/
def insertAsc (s : List ℝ) (i : ℕ) : List ℕ → List ℕ
  | [] => [i]
  | j :: js => if s.getD i 0 < s.getD j 0 then i :: j :: js else j :: insertAsc s i js

/-- Embedding of `s.argsort()`: indices of `s` stably sorted by
ascending value. -/
def argsort (s : List ℝ) : List ℕ :=
  (List.range s.length).foldl (fun acc i => insertAsc s i acc) []

/-- Embedding of the label computation `s.argsort()[::-1][0]`: the first
element of the reversed ascending argsort. -/
def topLabel (s : List ℝ) : ℕ := (argsort s).reverse.headD 0

/-- Prefix of the argsort construction: indices `0 .. n-1` stably
sorted by ascending value (so `argsort s = argsortAux s s.length`). -/
def argsortAux (s : List ℝ) (n : ℕ) : List ℕ :=
  (List.range n).foldl (fun acc i => insertAsc s i acc) []

/-- Helper for the analysis of `topLabel`: the index below `n` carrying
the maximal score among indices `0 .. n-1`, with ties resolved to the
HIGHEST index. -/
def lastMaxIdx (s : List ℝ) : ℕ → ℕ
  | 0 => 0
  | n + 1 => if s.getD n 0 < s.getD (lastMaxIdx s n) 0 then lastMaxIdx s n else n

/-- State of the per-class scan inside one `deepfool` iteration: the
current winning gradient difference `w_l`, score gap `f_l`, and the
bound `fk_wk_min` (initially `np.inf`; the source never assigns to it
again inside the loop, and the embedding reproduces that). -/
structure ScanState where
  w_l : Input
  f_l : ℝ
  fk_wk_min : EReal

/-- Body of the per-class scan for one non-skipped class `k`: compute
`w_k`, `f_k`, the distance `fk_wk = |f_k| / (‖w_k‖ + 1e-3)` and update
the winner whenever `fk_wk < fk_wk_min`.  Exactly as in the source,
the update keeps `fk_wk_min` unchanged. -/
def scanClassBody (model : Model) (xi : Input) (label_x0 : ℕ) (gradLabel : Input)
    (st : ScanState) (k : ℕ) : ScanState :=
  let gk := get_gradient model xi k
  let w_k := inputSub gk.1 gradLabel
  let w_k_norm := jointNorm w_k
  let f_k := gk.2.getD k 0 - gk.2.getD label_x0 0
  let fk_wk := |f_k| / (w_k_norm + 1e-3)
  if (fk_wk : EReal) < st.fk_wk_min then { st with w_l := w_k, f_l := f_k } else st

/-- One step of the class loop, with the `if (k == label_x0): continue`
skip of the source. -/
def scanClass (model : Model) (xi : Input) (label_x0 : ℕ) (gradLabel : Input)
    (st : ScanState) (k : ℕ) : ScanState :=
  if k = label_x0 then st else scanClassBody model xi label_x0 gradLabel st k

/-- Initial scan state of one iteration:
`w_l = [np.zeros(v.shape) for v in x0]`, `f_l = 0`, `fk_wk_min = np.inf`. -/
def initScan (x0 : Input) : ScanState :=
  { w_l := zerosLike x0, f_l := 0, fk_wk_min := ⊤ }

/-- The source's class scan: `for k in range(10)` with the skip, folded
over the scan state.  The class count 10 is hardcoded in the source
("possible classes in the problem considered for this project"). -/
def classScan (model : Model) (x0 xi : Input) (label_x0 : ℕ) (gradLabel : Input) : ScanState :=
  (List.range 10).foldl (scanClass model xi label_x0 gradLabel) (initScan x0)

/-- Scan as the spec describes it, written from the spec's words for
comparison with `classScan`: the classes range over
`0 .. num_classes - 1` with `num_classes` derived from the length of
the model's score vector at `xi`. -/
def specLenScan (model : Model) (x0 xi : Input) (label_x0 : ℕ) (gradLabel : Input) : ScanState :=
  (List.range (model.predict xi).length).foldl
    (scanClass model xi label_x0 gradLabel) (initScan x0)

/-- State of `deepfool`'s main loop: current candidate `xi`, its label,
the list `r` of per-iteration perturbation snapshots, and the loop
counter `loop_i`. -/
structure LoopState where
  xi : Input
  label_xi : ℕ
  r : List Input
  loop_i : ℕ

/-- One iteration of `deepfool`'s main loop: run the class scan, build
the step `ri = ri_const * w_l` with
`ri_const = ‖f_l‖ / (w_l_squared_norm + 1e-3)`, record it, move to
`xi + (1 + eta) * ri`, and recompute the label from a fresh forward
pass. -/
def deepfoolBody (model : Model) (x0 : Input) (eta : ℝ) (label_x0 : ℕ)
    (s : LoopState) : LoopState :=
  let gradLabel := (get_gradient model s.xi label_x0).1
  let scan := classScan model x0 s.xi label_x0 gradLabel
  let w_l_squared_norm := wSquaredNorm scan.w_l
  let f_l_norm := |scan.f_l|
  let ri_const := f_l_norm / (w_l_squared_norm + 1e-3)
  let ri := inputSmul ri_const scan.w_l
  let xi_new := inputAdd s.xi (inputSmul (1 + eta) ri)
  { xi := xi_new
    label_xi := topLabel (model.predict xi_new)
    r := s.r ++ [ri]
    loop_i := s.loop_i + 1 }

/-- The main `while label_xi == label_x0 and loop_i < max_iter` loop,
with the remaining iteration budget as fuel (the guard
`loop_i < max_iter` holds exactly while fuel remains, since `loop_i`
starts at 0 and each body run consumes one unit). -/
def deepfoolLoop (model : Model) (x0 : Input) (eta : ℝ) (label_x0 : ℕ) :
    ℕ → LoopState → LoopState
  | 0, s => s
  | fuel + 1, s =>
      if s.label_xi = label_x0 then
        deepfoolLoop model x0 eta label_x0 fuel (deepfoolBody model x0 eta label_x0 s)
      else s

/-- Full loop state of a `deepfool` run: initial label from
`model.predict(x0)` via `argsort()[::-1][0]`, `xi = deepcopy(x0)`,
empty snapshot list, `loop_i = 0`. -/
def deepfoolTrace (model : Model) (x0 : Input) (eta : ℝ) (max_iter : ℕ) : LoopState :=
  deepfoolLoop model x0 eta (topLabel (model.predict x0)) max_iter
    { xi := x0, label_xi := topLabel (model.predict x0), r := [], loop_i := 0 }

/-- The aggregation after the loop, exactly as the source writes it:
`r_sum[i]` starts as zeros of `x0[i]`'s shape and accumulates
`r_i[i][0]` — the FIRST ROW of the `i`-th field of each snapshot —
which numpy broadcasts across all rows of `r_sum[i]`. -/
def rSum (x0 : Input) (r : List Input) : Input :=
  (List.range x0.length).map (fun i =>
    r.foldl (fun acc r_i => acc.map (fun row => List.zipWith (· + ·) row ((r_i.getD i []).headD [])))
      (zerosField (x0.getD i [])))

/-- Aggregation as the claim states it, written from the spec's words
for comparison with `rSum`: `r_sum[i]` is the field-wise sum over all
iterations of the FULL `i`-th field of each snapshot. -/
def rSumSpec (x0 : Input) (r : List Input) : Input :=
  (List.range x0.length).map (fun i =>
    r.foldl (fun acc r_i => fieldZip (· + ·) acc (r_i.getD i []))
      (zerosField (x0.getD i [])))

/-- Embedding of `deepfool(model, x0, eta, max_iter)`: returns
`(r_sum, loop_i, label_xi)`. -/
def deepfool (model : Model) (x0 : Input) (eta : ℝ) (max_iter : ℕ) : Input × ℕ × ℕ :=
  let sF := deepfoolTrace model x0 eta max_iter
  (rSum x0 sF.r, sF.loop_i, sF.label_xi)

/-- Embedding of `save_pkl(data, path)`.  The filesystem is a partial
map from paths to byte blobs and `pickle.dump` an abstract encoder
(both external collaborators); `ok` records whether the open/dump
raised.  On failure the source only prints a notice and leaves the
store unchanged. -/
def save_pkl {Data Bytes Path : Type} [DecidableEq Path] (enc : Data → Bytes)
    (data : Data) (path : Path) (ok : Bool) (store : Path → Option Bytes) :
    Path → Option Bytes :=
  if ok then fun p => if p = path then some (enc data) else store p else store

/-- Embedding of `load_pkl(path)`: a missing file or a failing
`pickle.load` (abstract decoder returning `none`) lands in the
`except` branch, which returns the sentinel `None`. -/
def load_pkl {Data Bytes Path : Type} (dec : Bytes → Option Data) (path : Path)
    (store : Path → Option Bytes) : Option Data :=
  match store path with
  | none => none
  | some b =>
      match dec b with
      | none => none
      | some v => some v

/-- Score vector exhibiting the dead `fk_wk_min` bound: class 0 on top,
class 1 by far the closest competitor, class 9 the last one scanned. -/
def s1 : List ℝ := [1, 999 / 1000, 0, 0, 0, 0, 0, 0, 0, 1 / 2]

/-- Ten-class constant model with zero gradients everywhere. -/
def M1 : Model := { predict := fun _ => s1, grad := fun x _ => zerosLike x }

/-- A one-field, one-row, one-entry input. -/
def x1 : Input := [[[1]]]

/-- Gradient value with one field of two distinct rows, to expose the
`r_i[i][0]` row-0 broadcast in the aggregation. -/
def g2 : Input := [[[1], [2]]]

/-- Model whose class-9 gradient is `g2` and all other gradients zero,
with class 0 always on top (strictly descending scores). -/
def M2 : Model :=
  { predict := fun _ => [0, -1, -2, -3, -4, -5, -6, -7, -8, -9]
    grad := fun x k => if k = 9 then g2 else zerosLike x }

/-- A one-field input whose field has two rows. -/
def x2 : Input := [[[0], [0]]]

/-- Single-class model whose gradient is the input itself (its shape is
trivially that of the input). -/
def M2w : Model := { predict := fun _ => [1], grad := fun x _ => x }

/-- A one-field input whose field has a single row. -/
def x2w : Input := [[[3, 4]]]

/-- Twelve-class score vector: classes 10 and 11 exist but the source's
`range(10)` scan never reaches them. -/
def s12 : List ℝ := [1, 0, 0, 0, 0, 0, 0, 0, 0, 0, 0, 1 / 2]

/-- Twelve-class constant model with zero gradients everywhere. -/
def M12 : Model := { predict := fun _ => s12, grad := fun x _ => zerosLike x }

/-- Single-class constant model with empty gradients, used with the
empty input: its label can never flip. -/
def cM : Model := { predict := fun _ => [1], grad := fun _ _ => [] }

/-! ### Basic lemmas about the numeric helpers -/

theorem sumSqRow_nonneg (row : List ℝ) : 0 ≤ sumSqRow row := by
  unfold sumSqRow
  apply List.sum_nonneg
  intro a ha
  obtain ⟨b, _, rfl⟩ := List.mem_map.mp ha
  exact sq_nonneg b

theorem sumSqField_nonneg (f : Field) : 0 ≤ sumSqField f := by
  unfold sumSqField
  apply List.sum_nonneg
  intro a ha
  obtain ⟨row, _, rfl⟩ := List.mem_map.mp ha
  exact sumSqRow_nonneg row

theorem wSquaredNorm_nonneg (w : Input) : 0 ≤ wSquaredNorm w := by
  unfold wSquaredNorm
  apply List.sum_nonneg
  intro a ha
  obtain ⟨f, _, rfl⟩ := List.mem_map.mp ha
  exact sq_nonneg (fieldNorm f)

theorem jointNorm_nonneg (x : Input) : 0 ≤ jointNorm x := Real.sqrt_nonneg _

/-- The two joint norms coincide: summing squared per-field norms under
one square root equals the norm of the flattened union of all fields. -/
theorem jointNorm_eq_flatNorm (x : Input) : jointNorm x = flatNorm x := by
  unfold jointNorm flatNorm
  have hfe : (fun f : Field => fieldNorm f ^ 2) = sumSqField := by
    funext f
    unfold fieldNorm
    exact Real.sq_sqrt (sumSqField_nonneg f)
  rw [hfe]

/-! ### C9: the stabilizer keeps every divisor away from zero -/

/-- C9: both divisors of the per-iteration numerics — the distance
denominator `‖w_k‖ + 1e-3` of `fk_wk` and the step denominator
`w_l_squared_norm + 1e-3` of `ri_const` — are strictly positive for
every gradient difference `w`, including the degenerate case `w = 0`
(identical gradients), so neither division is by exact zero and, the
functions being total, nothing can raise. -/
theorem stabilizer_keeps_divisors_positive :
    ∀ w : Input, 0 < jointNorm w + 1e-3 ∧ 0 < wSquaredNorm w + 1e-3 := by
  intro w
  have h1 := jointNorm_nonneg w
  have h2 := wSquaredNorm_nonneg w
  constructor
  · have : (0 : ℝ) < 1e-3 := by norm_num
    linarith
  · have : (0 : ℝ) < 1e-3 := by norm_num
    linarith

/-! ### C7 and C8: iteration budget and non-convergence -/

/-- The loop body increments the iteration counter by exactly one. -/
theorem deepfoolBody_loop_i (model : Model) (x0 : Input) (eta : ℝ) (label_x0 : ℕ)
    (s : LoopState) :
    (deepfoolBody model x0 eta label_x0 s).loop_i = s.loop_i + 1 := rfl

/-- The loop consumes at most its fuel: the final counter is bounded by
the initial counter plus the remaining budget. -/
theorem deepfoolLoop_loop_i_le (model : Model) (x0 : Input) (eta : ℝ) (label_x0 : ℕ) :
    ∀ (fuel : ℕ) (s : LoopState),
      (deepfoolLoop model x0 eta label_x0 fuel s).loop_i ≤ s.loop_i + fuel := by
  intro fuel
  induction fuel with
  | zero => intro s; simp [deepfoolLoop]
  | succ n ih =>
      intro s
      by_cases h : s.label_xi = label_x0
      · rw [deepfoolLoop, if_pos h]
        have hb := deepfoolBody_loop_i model x0 eta label_x0 s
        have := ih (deepfoolBody model x0 eta label_x0 s)
        omega
      · rw [deepfoolLoop, if_neg h]
        omega

/-- C7: for every `max_iter ≥ 0` the main loop terminates (the embedding
is a total function on a fuel argument) and the returned iteration
count is non-negative and never exceeds `max_iter`. -/
theorem deepfool_iterations_bounded (model : Model) (x0 : Input) (eta : ℝ) (max_iter : ℕ) :
    0 ≤ (deepfool model x0 eta max_iter).2.1 ∧
    (deepfool model x0 eta max_iter).2.1 ≤ max_iter := by
  constructor
  · exact Nat.zero_le _
  · have h := deepfoolLoop_loop_i_le model x0 eta (topLabel (model.predict x0)) max_iter
      { xi := x0, label_xi := topLabel (model.predict x0), r := [], loop_i := 0 }
    simpa [deepfool, deepfoolTrace] using h

/-- A loop run that ends with the label still equal to `label_x0` must
have consumed all its fuel, one unit per iteration. -/
theorem deepfoolLoop_label_unchanged (model : Model) (x0 : Input) (eta : ℝ) (label_x0 : ℕ) :
    ∀ (fuel : ℕ) (s : LoopState),
      (deepfoolLoop model x0 eta label_x0 fuel s).label_xi = label_x0 →
      (deepfoolLoop model x0 eta label_x0 fuel s).loop_i = s.loop_i + fuel := by
  intro fuel
  induction fuel with
  | zero => intro s _; simp [deepfoolLoop]
  | succ n ih =>
      intro s hlab
      by_cases h : s.label_xi = label_x0
      · rw [deepfoolLoop, if_pos h] at hlab ⊢
        have hb := deepfoolBody_loop_i model x0 eta label_x0 s
        have := ih (deepfoolBody model x0 eta label_x0 s) hlab
        omega
      · rw [deepfoolLoop, if_neg h] at hlab
        exact absurd hlab h

/-- C8: a run in which the predicted label never changed — equivalently,
whose final label still equals `label_x0`, since the loop stops at the
first flip — returns normally (the embedding is total) with the
accumulated perturbation and `iterations_performed = max_iter`. -/
theorem deepfool_non_convergence (model : Model) (x0 : Input) (eta : ℝ) (max_iter : ℕ)
    (h : (deepfool model x0 eta max_iter).2.2 = topLabel (model.predict x0)) :
    (deepfool model x0 eta max_iter).2.1 = max_iter ∧
    (deepfool model x0 eta max_iter).1 =
      rSum x0 (deepfoolTrace model x0 eta max_iter).r := by
  constructor
  · have := deepfoolLoop_label_unchanged model x0 eta (topLabel (model.predict x0)) max_iter
      { xi := x0, label_xi := topLabel (model.predict x0), r := [], loop_i := 0 }
      (by simpa [deepfool, deepfoolTrace] using h)
    simpa [deepfool, deepfoolTrace] using this
  · rfl

/-- Witness for C8: on the constant single-class model the label can
never flip; a run with budget 2 ends with the initial label and a
count of exactly 2 iterations. -/
theorem deepfool_non_convergence_witness :
    (deepfool cM [] 0 2).2.2 = topLabel (cM.predict []) ∧
    (deepfool cM [] 0 2).2.1 = 2 := by
  have h : (deepfool cM [] 0 2).2.2 = topLabel (cM.predict []) := by
    rw [show (2 : ℕ) = 0 + 1 + 1 from rfl]
    norm_num [deepfool, deepfoolTrace, deepfoolLoop, deepfoolBody, classScan, scanClass,
      scanClassBody, initScan, get_gradient, cM, inputSub, inputAdd, inputZip, fieldZip,
      inputSmul, zerosLike, topLabel, argsort, insertAsc, List.range_succ,
      EReal.coe_lt_top]
  exact ⟨h, (deepfool_non_convergence cM [] 0 2 h).1⟩

/-! ### C10: the persistence pair -/

/-- C10: if a save succeeded (the store holds the encoded blob at
`path`) then a subsequent load returns exactly the saved object,
provided the external codec round-trips; and any load failure — a
missing blob or a failing decode — yields the sentinel `none` instead
of an exception (the `except` branch of the source). -/
theorem pkl_round_trip {Data Bytes Path : Type} [DecidableEq Path]
    (enc : Data → Bytes) (dec : Bytes → Option Data) (data : Data) (path : Path)
    (store : Path → Option Bytes)
    (hcodec : dec (enc data) = some data) :
    load_pkl dec path (save_pkl enc data path true store) = some data ∧
    (∀ st : Path → Option Bytes, st path = none → load_pkl dec path st = none) ∧
    (∀ (st : Path → Option Bytes) (b : Bytes), st path = some b → dec b = none →
        load_pkl dec path st = none) := by
  refine ⟨?_, ?_, ?_⟩
  · simp [save_pkl, load_pkl, hcodec]
  · intro st hst
    simp [load_pkl, hst]
  · intro st b hst hd
    simp [load_pkl, hst, hd]

/-- Witness for C10 at a concrete store and the identity codec. -/
theorem pkl_round_trip_witness :
    (some (id 5) = some 5) ∧
    load_pkl some 0 (save_pkl (id : ℕ → ℕ) 5 0 true (fun _ => none)) = some 5 :=
  ⟨rfl, (pkl_round_trip id some 5 0 (fun _ => none) rfl).1⟩

/-! ### C1: the class-selection scan and its dead minimum bound -/

/-- C1 (code evaluated at the failing input): with zero gradients
everywhere and scores `s1`, class 1 has the strictly smallest distance
`|f_k| / (‖w_k‖ + 1e-3)` among the scanned classes, yet the scan's
winner carries class 9's score gap — the last scanned class — because
`fk_wk_min` is never updated from `np.inf`, so every scanned class
overwrites the winner. -/
theorem classScan_dead_min_bound :
    (classScan M1 x1 x1 0 (zerosLike x1)).f_l = s1.getD 9 0 - s1.getD 0 0 ∧
    |s1.getD 1 0 - s1.getD 0 0| /
        (jointNorm (inputSub (M1.grad x1 1) (M1.grad x1 0)) + 1e-3) <
      |s1.getD 9 0 - s1.getD 0 0| /
        (jointNorm (inputSub (M1.grad x1 9) (M1.grad x1 0)) + 1e-3) ∧
    s1.getD 9 0 - s1.getD 0 0 ≠ s1.getD 1 0 - s1.getD 0 0 := by
  have hz : jointNorm (inputSub (zerosLike x1) (zerosLike x1)) = 0 := by
    norm_num [jointNorm, inputSub, inputZip, fieldZip, zerosLike, zerosField, x1,
      fieldNorm, sumSqField, sumSqRow, Real.sqrt_zero]
  refine ⟨?_, ?_, ?_⟩
  · norm_num [classScan, scanClass, scanClassBody, initScan, get_gradient, M1, s1,
      List.range_succ, EReal.coe_lt_top]
  · norm_num [M1, s1, hz, abs_of_nonneg]
  · norm_num [s1]

/-! ### C3: the scanned class set is hardcoded to ten -/

/-- Folding the scan with its `continue` skip over any class list is
folding the skipless body over the sublist of classes different from
the top label. -/
theorem scanClass_skip_filter (model : Model) (xi : Input) (label_x0 : ℕ) (gradLabel : Input) :
    ∀ (l : List ℕ) (st : ScanState),
      l.foldl (scanClass model xi label_x0 gradLabel) st =
      (l.filter (fun k => k ≠ label_x0)).foldl (scanClassBody model xi label_x0 gradLabel) st := by
  intro l
  induction l with
  | nil => intro st; simp
  | cons k ks ih =>
      intro st
      by_cases h : k = label_x0
      · rw [List.foldl_cons, scanClass, if_pos h, List.filter_cons,
          if_neg (by simp [h]), ih]
      · rw [List.foldl_cons, scanClass, if_neg h, List.filter_cons,
          if_pos (by simp [h]), List.foldl_cons, ih]

/-- C3 (amended): the per-iteration scan processes exactly the classes
`0 .. 9` other than the current top label — the class count is the
hardcoded constant 10, independent of the model's score vector. -/
theorem classScan_fixed_ten_classes (model : Model) (x0 xi : Input) (label_x0 : ℕ)
    (gradLabel : Input) :
    classScan model x0 xi label_x0 gradLabel =
      ((List.range 10).filter (fun k => k ≠ label_x0)).foldl
        (scanClassBody model xi label_x0 gradLabel) (initScan x0) :=
  scanClass_skip_filter model xi label_x0 gradLabel (List.range 10) (initScan x0)

/-- Counterexample for C3 as frozen: on a model with a twelve-entry
score vector the source's scan (classes `0 .. 9`) ends on class 9's
score gap, while the scan the claim describes — classes derived from
the score vector length — would end on class 11's; the two scans
disagree, so the scanned set is not derived from the score length. -/
theorem classScan_not_score_length_cex :
    (classScan M12 x1 x1 0 (zerosLike x1)).f_l ≠
      (specLenScan M12 x1 x1 0 (zerosLike x1)).f_l := by
  norm_num [classScan, specLenScan, scanClass, scanClassBody, initScan, get_gradient,
    M12, s12, List.range_succ, EReal.coe_lt_top]

/-! ### Shared shape lemmas -/

/-- Mapping an index-based read over `range` recovers a plain map. -/
theorem map_range_getD {α β : Type} (d : α) (g : α → β) :
    ∀ l : List α, (List.range l.length).map (fun i => g (l.getD i d)) = l.map g := by
  intro l
  induction l with
  | nil => simp
  | cons a t ih =>
      rw [List.length_cons, List.range_succ_eq_map, List.map_cons, List.map_map]
      simp only [Function.comp_def, List.getD_cons_zero, List.getD_cons_succ]
      rw [ih, List.map_cons]

/-- With no recorded snapshots the aggregation returns the all-zero
value shaped like `x0`. -/
theorem rSum_nil (x0 : Input) : rSum x0 [] = zerosLike x0 := by
  unfold rSum zerosLike
  simp only [List.foldl_nil]
  exact map_range_getD [] zerosField x0

/-- Zeroing preserves the field count and every per-field shape. -/
theorem inputShape_zerosLike (x : Input) : inputShape (zerosLike x) = inputShape x := by
  unfold inputShape zerosLike zerosField fieldShape
  simp [List.map_map, Function.comp_def]

/-! ### C2: the aggregation of the perturbation snapshots -/

/-- Pointwise operations preserve the shape of equally shaped fields. -/
theorem fieldShape_fieldZip (op : ℝ → ℝ → ℝ) :
    ∀ a b : Field, fieldShape a = fieldShape b → fieldShape (fieldZip op a b) = fieldShape a := by
  intro a
  induction a with
  | nil => intro b _; simp [fieldZip, fieldShape]
  | cons ra as ih =>
      intro b hb
      cases b with
      | nil => simp [fieldShape] at hb
      | cons rb bs =>
          simp only [fieldShape, List.map_cons, List.cons.injEq] at hb
          obtain ⟨hlen, hrest⟩ := hb
          simp only [fieldZip, List.zipWith_cons_cons, fieldShape, List.map_cons,
            List.cons.injEq]
          refine ⟨by rw [List.length_zipWith, hlen, Nat.min_self], ?_⟩
          have := ih bs hrest
          simpa [fieldZip, fieldShape] using this

/-- Pointwise operations preserve the shape of equally shaped
multi-field values. -/
theorem inputShape_inputZip (op : ℝ → ℝ → ℝ) :
    ∀ a b : Input, inputShape a = inputShape b → inputShape (inputZip op a b) = inputShape a := by
  intro a
  induction a with
  | nil => intro b _; simp [inputZip, inputShape]
  | cons fa as ih =>
      intro b hb
      cases b with
      | nil => simp [inputShape] at hb
      | cons fb bs =>
          simp only [inputShape, List.map_cons, List.cons.injEq] at hb
          obtain ⟨hsh, hrest⟩ := hb
          simp only [inputZip, List.zipWith_cons_cons, inputShape, List.map_cons,
            List.cons.injEq]
          refine ⟨fieldShape_fieldZip op fa fb hsh, ?_⟩
          have := ih bs hrest
          simpa [inputZip, inputShape] using this

/-- Scalar multiplication preserves shape. -/
theorem inputShape_inputSmul (c : ℝ) (x : Input) :
    inputShape (inputSmul c x) = inputShape x := by
  unfold inputShape inputSmul fieldShape fieldSmul
  simp [List.map_map, Function.comp_def]

/-- The shape of an indexed field read only depends on the shape. -/
theorem fieldShape_getD (a : Input) (i : ℕ) :
    fieldShape (a.getD i []) = (inputShape a).getD i [] :=
  (List.getD_map a [] fieldShape).symm

/-- The winning `w_l` of the scan is shaped like `x0` whenever all
gradients at `xi` are. -/
theorem classScan_w_l_shape (model : Model) (x0 xi : Input) (label_x0 : ℕ) (gradLabel : Input)
    (hg : ∀ k, inputShape (model.grad xi k) = inputShape x0)
    (hgl : inputShape gradLabel = inputShape x0) :
    inputShape (classScan model x0 xi label_x0 gradLabel).w_l = inputShape x0 := by
  have hgen : ∀ (l : List ℕ) (st : ScanState), inputShape st.w_l = inputShape x0 →
      inputShape ((l.foldl (scanClass model xi label_x0 gradLabel) st).w_l) = inputShape x0 := by
    intro l
    induction l with
    | nil => intro st h; simpa using h
    | cons k ks ih =>
        intro st h
        rw [List.foldl_cons]
        apply ih
        have hwk : inputShape (inputSub (model.grad xi k) gradLabel) = inputShape x0 := by
          unfold inputSub
          rw [inputShape_inputZip _ _ _ (by rw [hg k, hgl]), hg k]
        unfold scanClass scanClassBody
        by_cases hk : k = label_x0
        · rw [if_pos hk]; exact h
        · rw [if_neg hk]
          dsimp only [get_gradient]
          split
          · exact hwk
          · exact h
  exact hgen (List.range 10) (initScan x0) (by
    show inputShape (zerosLike x0) = inputShape x0
    exact inputShape_zerosLike x0)

/-- One loop body keeps the candidate shaped like `x0` and appends one
snapshot shaped like `x0`. -/
theorem deepfoolBody_shape (model : Model) (x0 : Input) (eta : ℝ) (label_x0 : ℕ)
    (s : LoopState)
    (hm : ∀ (x : Input) (k : ℕ), inputShape (model.grad x k) = inputShape x)
    (hxi : inputShape s.xi = inputShape x0) :
    inputShape (deepfoolBody model x0 eta label_x0 s).xi = inputShape x0 ∧
    ∀ ri ∈ (deepfoolBody model x0 eta label_x0 s).r,
      ri ∈ s.r ∨ inputShape ri = inputShape x0 := by
  unfold deepfoolBody
  dsimp only [get_gradient]
  have hscan : inputShape (classScan model x0 s.xi label_x0 (model.grad s.xi label_x0)).w_l =
      inputShape x0 := by
    apply classScan_w_l_shape
    · intro k; rw [hm s.xi k, hxi]
    · rw [hm s.xi label_x0, hxi]
  constructor
  · unfold inputAdd
    rw [inputShape_inputZip _ _ _
      (by rw [hxi, inputShape_inputSmul, inputShape_inputSmul, hscan])]
    exact hxi
  · intro ri hri_mem
    rcases List.mem_append.mp hri_mem with hmem | hmem
    · exact Or.inl hmem
    · right
      rw [List.mem_singleton.mp hmem, inputShape_inputSmul]
      exact hscan

/-- The loop keeps every recorded snapshot shaped like `x0`. -/
theorem deepfoolLoop_shape (model : Model) (x0 : Input) (eta : ℝ) (label_x0 : ℕ)
    (hm : ∀ (x : Input) (k : ℕ), inputShape (model.grad x k) = inputShape x) :
    ∀ (fuel : ℕ) (s : LoopState), inputShape s.xi = inputShape x0 →
      (∀ ri ∈ s.r, inputShape ri = inputShape x0) →
      ∀ ri ∈ (deepfoolLoop model x0 eta label_x0 fuel s).r, inputShape ri = inputShape x0 := by
  intro fuel
  induction fuel with
  | zero => intro s _ hr; simpa [deepfoolLoop] using hr
  | succ n ih =>
      intro s hxi hr
      rw [deepfoolLoop]
      by_cases h : s.label_xi = label_x0
      · rw [if_pos h]
        obtain ⟨hxi2, hr2⟩ := deepfoolBody_shape model x0 eta label_x0 s hm hxi
        apply ih _ hxi2
        intro ri hri
        rcases hr2 ri hri with hmem | hsh
        · exact hr ri hmem
        · exact hsh
      · rw [if_neg h]
        exact hr

/-- Fold bridge: on single-row fields the source's row-0 broadcast
accumulation coincides with the full field-wise sum. -/
theorem fold_broadcast_eq_spec (fi : Field) (i : ℕ) (h1 : fi.length = 1) :
    ∀ r : List Input, (∀ ri ∈ r, fieldShape (ri.getD i []) = fieldShape fi) →
      ∀ acc : Field, fieldShape acc = fieldShape fi →
        r.foldl (fun acc r_i =>
            acc.map (fun row => List.zipWith (· + ·) row ((r_i.getD i []).headD []))) acc =
        r.foldl (fun acc r_i => fieldZip (· + ·) acc (r_i.getD i [])) acc := by
  intro r
  induction r with
  | nil => intro _ acc _; rfl
  | cons ri rs ih =>
      intro hsh acc hacc
      have hg : fieldShape (ri.getD i []) = fieldShape fi := hsh ri (by simp)
      have hlen_acc : acc.length = 1 := by
        have := congrArg List.length hacc
        simpa [fieldShape, h1] using this
      have hlen_g : (ri.getD i []).length = 1 := by
        have := congrArg List.length hg
        simpa [fieldShape, h1] using this
      obtain ⟨arow, rfl⟩ := List.length_eq_one.mp hlen_acc
      obtain ⟨grow, hgrow⟩ := List.length_eq_one.mp hlen_g
      have hwidth : grow.length = arow.length := by
        rw [hgrow] at hg
        simp only [fieldShape, List.map_cons, List.map_nil] at hacc hg
        rw [← hacc] at hg
        exact (List.cons.injEq _ _ _ _).mp hg |>.1
      rw [List.foldl_cons, List.foldl_cons, hgrow]
      have hstep : ([arow].map (fun row => List.zipWith (· + ·) row (([grow] : Field).headD []))) =
          fieldZip (· + ·) [arow] [grow] := by
        simp [fieldZip]
      rw [hstep]
      apply ih (fun rj hrj => hsh rj (List.mem_cons_of_mem ri hrj))
      show fieldShape (fieldZip (· + ·) [arow] [grow]) = fieldShape fi
      rw [fieldShape_fieldZip (· + ·) [arow] [grow] (by simp [fieldShape, hwidth]), ← hacc]

/-- When every field of `x0` has a single leading row and every
snapshot is shaped like `x0`, the source's aggregation equals the
field-wise sum of the full snapshots. -/
theorem rSum_single_row (x0 : Input) (r : List Input)
    (h1 : ∀ f ∈ x0, f.length = 1)
    (hr : ∀ ri ∈ r, inputShape ri = inputShape x0) :
    rSum x0 r = rSumSpec x0 r := by
  unfold rSum rSumSpec
  apply List.map_congr_left
  intro i hi
  have hil : i < x0.length := List.mem_range.mp hi
  have hmem : x0.getD i [] ∈ x0 := by
    rw [List.getD_eq_getElem x0 [] hil]
    exact List.getElem_mem hil
  have h1i : (x0.getD i []).length = 1 := h1 _ hmem
  apply fold_broadcast_eq_spec (x0.getD i []) i h1i r
  · intro ri hri
    rw [fieldShape_getD, fieldShape_getD, hr ri hri]
  · show fieldShape (zerosField (x0.getD i [])) = fieldShape (x0.getD i [])
    unfold zerosField fieldShape
    simp [List.map_map, Function.comp_def]

/-- C2 (amended): the returned aggregate accumulates, for each field
index `i`, the broadcast of ROW 0 of the `i`-th field of every
snapshot (`r_i[i][0]`), not the full field; this coincides with the
claimed full field-wise sum exactly in the spec's own data model,
where every field's leading (batch) axis has size 1 and gradients are
shaped like their input. -/
theorem deepfool_rsum_single_row (model : Model) (x0 : Input) (eta : ℝ) (max_iter : ℕ)
    (hm : ∀ (x : Input) (k : ℕ), inputShape (model.grad x k) = inputShape x)
    (h1 : ∀ f ∈ x0, f.length = 1) :
    (deepfool model x0 eta max_iter).1 =
      rSumSpec x0 (deepfoolTrace model x0 eta max_iter).r := by
  have hsnap : ∀ ri ∈ (deepfoolTrace model x0 eta max_iter).r,
      inputShape ri = inputShape x0 := by
    apply deepfoolLoop_shape model x0 eta (topLabel (model.predict x0)) hm max_iter
    · rfl
    · intro ri hri
      simp at hri
  exact rSum_single_row x0 _ h1 hsnap

/-- Witness for C2's amended statement: a gradient-preserving model on
a single-row input. -/
theorem deepfool_rsum_single_row_witness :
    (∀ (x : Input) (k : ℕ), inputShape (M2w.grad x k) = inputShape x) ∧
    (∀ f ∈ x2w, f.length = 1) ∧
    (deepfool M2w x2w 0 0).1 = rSumSpec x2w (deepfoolTrace M2w x2w 0 0).r := by
  have hm : ∀ (x : Input) (k : ℕ), inputShape (M2w.grad x k) = inputShape x := fun _ _ => rfl
  have h1 : ∀ f ∈ x2w, f.length = 1 := by
    intro f hf
    simp only [x2w, List.mem_singleton] at hf
    rw [hf]
    rfl
  exact ⟨hm, h1, deepfool_rsum_single_row M2w x2w 0 0 hm h1⟩

/-- Counterexample for C2 as frozen: on a two-row field the aggregate
of a one-iteration run broadcasts row 0 of the snapshot over both
rows, so it differs from the field-wise sum of the full snapshot. -/
theorem rSum_row0_broadcast_cex :
    (deepfool M2 x2 0 1).1 ≠ rSumSpec x2 (deepfoolTrace M2 x2 0 1).r := by
  have h5 : fieldNorm [[(1 : ℝ)], [2]] ^ 2 = 5 := by
    unfold fieldNorm
    rw [Real.sq_sqrt (sumSqField_nonneg _)]
    norm_num [sumSqField, sumSqRow]
  rw [show (1 : ℕ) = 0 + 1 from rfl]
  norm_num [deepfool, deepfoolTrace, deepfoolLoop, deepfoolBody, classScan, scanClass,
    scanClassBody, initScan, get_gradient, M2, g2, x2, inputSub, inputAdd, inputZip,
    fieldZip, inputSmul, fieldSmul, zerosLike, zerosField, rSum, rSumSpec, wSquaredNorm,
    topLabel, argsort, insertAsc, List.range_succ, EReal.coe_lt_top, h5]

/-! ### C6: zero iteration budget -/

/-- C6: with `max_iter = 0` the engine performs zero iterations and
returns the all-zero perturbation shaped exactly like `x0`, a zero
iteration count, and the initial label. -/
theorem deepfool_zero_budget (model : Model) (x0 : Input) (eta : ℝ) :
    deepfool model x0 eta 0 = (zerosLike x0, 0, topLabel (model.predict x0)) ∧
    inputShape (deepfool model x0 eta 0).1 = inputShape x0 := by
  have h : deepfool model x0 eta 0 = (zerosLike x0, 0, topLabel (model.predict x0)) := by
    unfold deepfool deepfoolTrace deepfoolLoop
    simp [rSum_nil]
  exact ⟨h, by rw [h]; exact inputShape_zerosLike x0⟩

/-! ### C5: the robustness ratio -/

/-- Norm of a one-row one-entry field is the absolute value of the
entry; stated squared to avoid the square root. -/
theorem fieldNorm_single_sq (a : ℝ) : fieldNorm [[a]] ^ 2 = a ^ 2 := by
  unfold fieldNorm
  rw [Real.sq_sqrt (sumSqField_nonneg _)]
  simp [sumSqField, sumSqRow]

/-- C5: `example_robustness` computes the ratio of the two joint
Euclidean norms over the flattened union of all fields, and on the
spec's concrete scenario `x = [3, 4]`, `r = [0.3, 0.4]` it returns
exactly `0.1`. -/
theorem example_robustness_spec :
    (∀ x r : Input, flatNorm x ≠ 0 →
        example_robustness x r = flatNorm r / flatNorm x) ∧
    example_robustness [[[3]], [[4]]] [[[3 / 10]], [[4 / 10]]] = 1 / 10 := by
  constructor
  · intro x r _
    unfold example_robustness
    rw [jointNorm_eq_flatNorm, jointNorm_eq_flatNorm]
  · have hx : jointNorm [[[3]], [[4]]] = 5 := by
      unfold jointNorm
      simp only [List.map_cons, List.map_nil, List.sum_cons, List.sum_nil,
        fieldNorm_single_sq]
      rw [show (3 : ℝ) ^ 2 + (4 ^ 2 + 0) = 5 ^ 2 by norm_num,
        Real.sqrt_sq (by norm_num)]
    have hr : jointNorm [[[3 / 10]], [[4 / 10]]] = 1 / 2 := by
      unfold jointNorm
      simp only [List.map_cons, List.map_nil, List.sum_cons, List.sum_nil,
        fieldNorm_single_sq]
      rw [show (3 / 10 : ℝ) ^ 2 + ((4 / 10) ^ 2 + 0) = (1 / 2) ^ 2 by norm_num,
        Real.sqrt_sq (by norm_num)]
    unfold example_robustness
    rw [hx, hr]
    norm_num

/-! ### C4: the label computation `argsort()[::-1][0]` -/

theorem mem_insertAsc (s : List ℝ) (i x : ℕ) :
    ∀ l : List ℕ, x ∈ insertAsc s i l ↔ x = i ∨ x ∈ l := by
  intro l
  induction l with
  | nil => simp [insertAsc]
  | cons j js ih =>
      rw [insertAsc]
      by_cases h : s.getD i 0 < s.getD j 0
      · rw [if_pos h]
        simp [List.mem_cons]
      · rw [if_neg h]
        simp only [List.mem_cons, ih]
        tauto

theorem insertAsc_ne_nil (s : List ℝ) (i : ℕ) : ∀ l : List ℕ, insertAsc s i l ≠ [] := by
  intro l
  cases l with
  | nil => simp [insertAsc]
  | cons j js =>
      rw [insertAsc]
      by_cases h : s.getD i 0 < s.getD j 0
      · rw [if_pos h]; simp
      · rw [if_neg h]; simp

/-- Inserting keeps the index list sorted by ascending score value. -/
theorem sorted_insertAsc (s : List ℝ) (i : ℕ) :
    ∀ l : List ℕ, List.Sorted (fun a b => s.getD a 0 ≤ s.getD b 0) l →
      List.Sorted (fun a b => s.getD a 0 ≤ s.getD b 0) (insertAsc s i l) := by
  intro l
  induction l with
  | nil => intro _; simp [insertAsc]
  | cons j js ih =>
      intro hs
      rw [List.sorted_cons] at hs
      obtain ⟨hj, hjs⟩ := hs
      rw [insertAsc]
      by_cases h : s.getD i 0 < s.getD j 0
      · rw [if_pos h, List.sorted_cons]
        refine ⟨?_, ?_⟩
        · intro b hb
          rcases List.mem_cons.mp hb with rfl | hbjs
          · exact le_of_lt h
          · exact le_trans (le_of_lt h) (hj b hbjs)
        · rw [List.sorted_cons]
          exact ⟨hj, hjs⟩
      · rw [if_neg h, List.sorted_cons]
        refine ⟨?_, ih hjs⟩
        intro b hb
        rcases (mem_insertAsc s i b js).mp hb with rfl | hbjs
        · exact le_of_not_lt h
        · exact hj b hbjs

theorem getLastD_mem : ∀ (l : List ℕ) (d : ℕ), l ≠ [] → l.getLastD d ∈ l := by
  intro l
  induction l with
  | nil => intro d h; exact absurd rfl h
  | cons a t ih =>
      intro d _
      rw [List.getLastD_cons]
      cases t with
      | nil => simp [List.getLastD_nil]
      | cons b t2 => exact List.mem_cons_of_mem a (ih a (by simp))

theorem getLastD_irrel : ∀ (l : List ℕ) (d1 d2 : ℕ), l ≠ [] → l.getLastD d1 = l.getLastD d2 := by
  intro l
  induction l with
  | nil => intro d1 d2 h; exact absurd rfl h
  | cons a t ih =>
      intro d1 d2 _
      rw [List.getLastD_cons, List.getLastD_cons]

/-- Where the inserted index lands at the back: it becomes the new last
element unless the old last element has a strictly greater value — so
on an equal value the LATER index wins the back position. -/
theorem getLastD_insertAsc (s : List ℝ) (i : ℕ) :
    ∀ l : List ℕ, List.Sorted (fun a b => s.getD a 0 ≤ s.getD b 0) l → l ≠ [] →
      (insertAsc s i l).getLastD 0 =
        if s.getD i 0 < s.getD (l.getLastD 0) 0 then l.getLastD 0 else i := by
  intro l
  induction l with
  | nil => intro _ h; exact absurd rfl h
  | cons j js ih =>
      intro hs _
      rw [List.sorted_cons] at hs
      obtain ⟨hj, hjs⟩ := hs
      cases js with
      | nil =>
          rw [insertAsc]
          by_cases h : s.getD i 0 < s.getD j 0
          · rw [if_pos h]
            simp only [insertAsc, List.getLastD_cons, List.getLastD_nil]
            rw [if_pos (by simpa using h)]
          · rw [if_neg h]
            simp only [insertAsc, List.getLastD_cons, List.getLastD_nil]
            rw [if_neg (by simpa using h)]
      | cons j2 js2 =>
          have hne : (j2 :: js2 : List ℕ) ≠ [] := by simp
          have hlast_mem : (j2 :: js2).getLastD j ∈ j2 :: js2 := getLastD_mem _ j hne
          have hlast_eq : (j2 :: js2).getLastD j = (j2 :: js2).getLastD 0 :=
            getLastD_irrel _ j 0 hne
          have hcons_last : (j :: j2 :: js2).getLastD 0 = (j2 :: js2).getLastD 0 := by
            rw [List.getLastD_cons, hlast_eq]
          rw [insertAsc]
          by_cases h : s.getD i 0 < s.getD j 0
          · rw [if_pos h]
            have hjle : s.getD j 0 ≤ s.getD ((j2 :: js2).getLastD 0) 0 := by
              rw [← hlast_eq]
              exact hj _ hlast_mem
            have hcond : s.getD i 0 < s.getD ((j :: j2 :: js2).getLastD 0) 0 := by
              rw [hcons_last]
              exact lt_of_lt_of_le h hjle
            rw [if_pos hcond]
            rw [List.getLastD_cons, List.getLastD_cons, hlast_eq, hcons_last]
          · rw [if_neg h]
            have hrec := ih hjs hne
            have hins_ne := insertAsc_ne_nil s i (j2 :: js2)
            rw [List.getLastD_cons, getLastD_irrel _ j 0 hins_ne, hrec, hcons_last]

/-- The argsort prefix is sorted, and its last element is the highest
index attaining the running maximum. -/
theorem argsortAux_spec (s : List ℝ) :
    ∀ n : ℕ, List.Sorted (fun a b => s.getD a 0 ≤ s.getD b 0) (argsortAux s n) ∧
      (0 < n → argsortAux s n ≠ [] ∧ (argsortAux s n).getLastD 0 = lastMaxIdx s n) := by
  intro n
  induction n with
  | zero =>
      constructor
      · simp [argsortAux]
      · intro h; exact absurd h (by omega)
  | succ m ih =>
      obtain ⟨ihs, ihl⟩ := ih
      have hstep : argsortAux s (m + 1) = insertAsc s m (argsortAux s m) := by
        unfold argsortAux
        rw [List.range_succ, List.foldl_append, List.foldl_cons, List.foldl_nil]
      constructor
      · rw [hstep]
        exact sorted_insertAsc s m _ ihs
      · intro _
        refine ⟨by rw [hstep]; exact insertAsc_ne_nil s m _, ?_⟩
        cases m with
        | zero =>
            rw [hstep]
            show (insertAsc s 0 (argsortAux s 0)).getLastD 0 = lastMaxIdx s 1
            have h0 : argsortAux s 0 = [] := by simp [argsortAux]
            rw [h0]
            show ([0] : List ℕ).getLastD 0 = lastMaxIdx s 1
            simp [List.getLastD_cons, List.getLastD_nil, lastMaxIdx]
        | succ k =>
            obtain ⟨hne, hlast⟩ := ihl (by omega)
            rw [hstep, getLastD_insertAsc s (k + 1) _ ihs hne, hlast]
            conv_rhs => rw [lastMaxIdx]

theorem lastMaxIdx_lt (s : List ℝ) : ∀ n : ℕ, 0 < n → lastMaxIdx s n < n := by
  intro n
  induction n with
  | zero => intro h; exact absurd h (by omega)
  | succ m ih =>
      intro _
      rw [lastMaxIdx]
      by_cases h : s.getD m 0 < s.getD (lastMaxIdx s m) 0
      · rw [if_pos h]
        rcases Nat.eq_zero_or_pos m with rfl | hm
        · simp [lastMaxIdx]
        · exact lt_trans (ih hm) (by omega)
      · rw [if_neg h]
        omega

theorem lastMaxIdx_is_max (s : List ℝ) :
    ∀ n : ℕ, ∀ j < n, s.getD j 0 ≤ s.getD (lastMaxIdx s n) 0 := by
  intro n
  induction n with
  | zero => intro j hj; omega
  | succ m ih =>
      intro j hj
      rw [lastMaxIdx]
      by_cases h : s.getD m 0 < s.getD (lastMaxIdx s m) 0
      · rw [if_pos h]
        rcases Nat.lt_succ_iff_lt_or_eq.mp hj with hjm | rfl
        · exact ih j hjm
        · exact le_of_lt h
      · rw [if_neg h]
        rcases Nat.lt_succ_iff_lt_or_eq.mp hj with hjm | rfl
        · exact le_trans (ih j hjm) (le_of_not_lt h)
        · exact le_refl _

theorem lastMaxIdx_strict_after (s : List ℝ) :
    ∀ n : ℕ, ∀ j < n, lastMaxIdx s n < j → s.getD j 0 < s.getD (lastMaxIdx s n) 0 := by
  intro n
  induction n with
  | zero => intro j hj; omega
  | succ m ih =>
      intro j hj
      rw [lastMaxIdx]
      by_cases h : s.getD m 0 < s.getD (lastMaxIdx s m) 0
      · rw [if_pos h]
        intro hgt
        rcases Nat.lt_succ_iff_lt_or_eq.mp hj with hjm | rfl
        · exact ih j hjm hgt
        · exact h
      · rw [if_neg h]
        intro hgt
        omega

/-- The head of the reversed list is its last element. -/
theorem headD_reverse (l : List ℕ) : l.reverse.headD 0 = l.getLastD 0 := by
  rw [List.headD_eq_head?, List.head?_reverse, List.getLastD_eq_getLast?]

/-- C4 (amended): the label computed by `deepfool` — the initial
`label_x0` and each iteration's `label_xi` alike go through
`topLabel` — is an index of maximal score, deterministic on equal
inputs, but ties are broken by the HIGHEST index, not the lowest: the
last position of the stable ascending argsort is the greatest index
attaining the maximum. -/
theorem topLabel_stable_argmax_high (s : List ℝ) (h : s ≠ []) :
    topLabel s < s.length ∧
    (∀ j < s.length, s.getD j 0 ≤ s.getD (topLabel s) 0) ∧
    (∀ j < s.length, topLabel s < j → s.getD j 0 < s.getD (topLabel s) 0) := by
  have hn : 0 < s.length := List.length_pos.mpr h
  have hspec := argsortAux_spec s s.length
  obtain ⟨_, hlast⟩ := hspec
  obtain ⟨_, hl⟩ := hlast hn
  have htop : topLabel s = lastMaxIdx s s.length := by
    unfold topLabel
    rw [show argsort s = argsortAux s s.length from rfl, headD_reverse, hl]
  rw [htop]
  exact ⟨lastMaxIdx_lt s _ hn, lastMaxIdx_is_max s _, lastMaxIdx_strict_after s _⟩

/-- Witness for C4's amended statement at the concrete vector `[1, 2]`. -/
theorem topLabel_stable_argmax_high_witness :
    ([(1 : ℝ), 2] ≠ []) ∧
    (topLabel [(1 : ℝ), 2] < 2 ∧
      (∀ j < ([(1 : ℝ), 2] : List ℝ).length,
        [(1 : ℝ), 2].getD j 0 ≤ [(1 : ℝ), 2].getD (topLabel [(1 : ℝ), 2]) 0) ∧
      (∀ j < ([(1 : ℝ), 2] : List ℝ).length, topLabel [(1 : ℝ), 2] < j →
        [(1 : ℝ), 2].getD j 0 < [(1 : ℝ), 2].getD (topLabel [(1 : ℝ), 2]) 0)) := by
  have h : ([(1 : ℝ), 2] : List ℝ) ≠ [] := by simp
  have := topLabel_stable_argmax_high [(1 : ℝ), 2] h
  exact ⟨h, by simpa using this⟩

/-- Counterexample for C4 as frozen: on the score vector `[2, 2]` the
maximum is attained at index 0 as well, yet the label
`argsort()[::-1][0]` is 1 — the tie is broken by the highest index,
not the lowest. -/
theorem topLabel_lowest_tie_cex :
    [(2 : ℝ), 2].getD 0 0 = [(2 : ℝ), 2].getD (topLabel [(2 : ℝ), 2]) 0 ∧
    topLabel [(2 : ℝ), 2] = 1 := by
  have h : topLabel [(2 : ℝ), 2] = 1 := by
    unfold topLabel argsort
    norm_num [List.range_succ, insertAsc]
  exact ⟨by rw [h]; norm_num, h⟩

/-- Witness for C5: the nonzero-norm precondition holds at the concrete
scenario and the theorem applies there. -/
theorem example_robustness_spec_witness :
    flatNorm [[[3]], [[4]]] ≠ 0 ∧
    example_robustness [[[3]], [[4]]] [[[3 / 10]], [[4 / 10]]] =
      flatNorm [[[3 / 10]], [[4 / 10]]] / flatNorm [[[3]], [[4]]] := by
  have hx : flatNorm [[[3]], [[4]]] ≠ 0 := by
    have h5 : jointNorm [[[3]], [[4]]] = 5 := by
      unfold jointNorm
      simp only [List.map_cons, List.map_nil, List.sum_cons, List.sum_nil,
        fieldNorm_single_sq]
      rw [show (3 : ℝ) ^ 2 + (4 ^ 2 + 0) = 5 ^ 2 by norm_num,
        Real.sqrt_sq (by norm_num)]
    rw [← jointNorm_eq_flatNorm, h5]
    norm_num
  exact ⟨hx, example_robustness_spec.1 [[[3]], [[4]]] [[[3 / 10]], [[4 / 10]]] hx⟩

end

end DF
